import Mathlib

/-!
Verification of the expression-evaluation contract of the calculator tool
(`src/atomic_tools/calculator_tool/calculator_tool.py`).

The tool itself is three lines: `sympify(str(params.expression))`, `.evalf()`,
`str(...)`.  The delegate engine (SymPy) is an external dependency, so the
fragment of its behaviour that the tool's contract touches is modelled here:
Python tokenization, the default `sympify` parse with automatic numeric
evaluation, `evalf`, and the string printer.  The model is calibrated against
the concrete outputs recorded in the source's own docstrings
(`"2 + 2" ↦ "4.00000000000000"`, `"2 * 3 + 4" ↦ "10.0000000000000"`,
`"sin(pi/2)" ↦ "1.00000000000000"`).
-/

namespace AtomicTools

/-! ## Kernel-computable rational arithmetic

The library's field operations on `ℚ` are deliberately irreducible, which
blocks evaluation inside proofs.  The model therefore computes with thin
wrappers built on the reducible primitive `Rat.divInt`; each wrapper is
proved equal to the corresponding field operation, so specification-level
reasoning stays in ordinary `ℚ` algebra. -/

/-- Computable rational addition. -/
def qadd (a b : ℚ) : ℚ :=
  Rat.divInt (a.num * (b.den : ℤ) + b.num * (a.den : ℤ)) ((a.den : ℤ) * (b.den : ℤ))

/-- Computable rational negation. -/
def qneg (a : ℚ) : ℚ := Rat.divInt (-a.num) (a.den : ℤ)

/-- Computable rational subtraction. -/
def qsub (a b : ℚ) : ℚ := qadd a (qneg b)

/-- Computable rational multiplication. -/
def qmul (a b : ℚ) : ℚ :=
  Rat.divInt (a.num * b.num) ((a.den : ℤ) * (b.den : ℤ))

/-- Computable rational inverse (`qinv 0 = 0`). -/
def qinv (a : ℚ) : ℚ := Rat.divInt (a.den : ℤ) a.num

/-- Computable rational division (division by zero yields `0`, matching the
library's convention). -/
def qdiv (a b : ℚ) : ℚ :=
  Rat.divInt (a.num * (b.den : ℤ)) ((a.den : ℤ) * b.num)

/-- Computable rational power with a natural exponent. -/
def qpowN (a : ℚ) : ℕ → ℚ
  | 0 => 1
  | k + 1 => qmul a (qpowN a k)

/-! ## Delegate model: numeric values

Modelled from the spec: the delegate engine evaluates numeric subterms
exactly (rationals, complex rationals) and produces `zoo` (complex infinity)
for division by zero and `nan` for indeterminate forms. -/

/-- Modelled from the spec: a number held by the delegate engine — an exact
rational, a complex number with rational parts (imaginary part nonzero by
construction of `mkCplx`), complex infinity (`zoo`), or not-a-number. -/
inductive NumVal where
  | rat : ℚ → NumVal
  | cplx : ℚ → ℚ → NumVal
  | zoo : NumVal
  | nan : NumVal
deriving DecidableEq

/-- Normalise a complex value: a zero imaginary part collapses to a rational. -/
def mkCplx (re im : ℚ) : NumVal :=
  if im = 0 then .rat re else .cplx re im

/-- Negation of a delegate number. -/
def nneg : NumVal → NumVal
  | .rat q => .rat (-q)
  | .cplx a b => .cplx (-a) (-b)
  | .zoo => .zoo
  | .nan => .nan

/-- Addition of delegate numbers (`zoo` absorbs finite values, `zoo + zoo`
and anything involving `nan` is `nan`). -/
def nadd : NumVal → NumVal → NumVal
  | .nan, _ => .nan
  | _, .nan => .nan
  | .zoo, .zoo => .nan
  | .zoo, _ => .zoo
  | _, .zoo => .zoo
  | .rat a, .rat b => .rat (qadd a b)
  | .rat a, .cplx c d => mkCplx (qadd a c) d
  | .cplx a b, .rat c => mkCplx (qadd a c) b
  | .cplx a b, .cplx c d => mkCplx (qadd a c) (qadd b d)

/-- Multiplication of delegate numbers (`zoo * 0 = nan`, otherwise `zoo`
absorbs finite values). -/
def nmul : NumVal → NumVal → NumVal
  | .nan, _ => .nan
  | _, .nan => .nan
  | .zoo, .rat a => if a = 0 then .nan else .zoo
  | .rat a, .zoo => if a = 0 then .nan else .zoo
  | .zoo, _ => .zoo
  | _, .zoo => .zoo
  | .rat a, .rat b => .rat (qmul a b)
  | .rat a, .cplx c d => mkCplx (qmul a c) (qmul a d)
  | .cplx a b, .rat c => mkCplx (qmul a c) (qmul b c)
  | .cplx a b, .cplx c d => mkCplx (qsub (qmul a c) (qmul b d)) (qadd (qmul a d) (qmul b c))

/-- Division of delegate numbers: division by zero yields `zoo`
(`0 / 0` yields `nan`), mirroring the delegate's automatic evaluation. -/
def ndiv : NumVal → NumVal → NumVal
  | .nan, _ => .nan
  | _, .nan => .nan
  | .zoo, .zoo => .nan
  | .zoo, _ => .zoo
  | _, .zoo => .rat 0
  | .rat a, .rat b =>
      if b = 0 then (if a = 0 then .nan else .zoo) else .rat (qdiv a b)
  | .cplx a b, .rat c =>
      if c = 0 then .zoo else mkCplx (qdiv a c) (qdiv b c)
  | .rat a, .cplx c d =>
      let n := qadd (qmul c c) (qmul d d)
      if n = 0 then (if a = 0 then .nan else .zoo)
      else mkCplx (qdiv (qmul a c) n) (qdiv (-(qmul a d)) n)
  | .cplx a b, .cplx c d =>
      let n := qadd (qmul c c) (qmul d d)
      if n = 0 then .zoo
      else mkCplx (qdiv (qadd (qmul a c) (qmul b d)) n) (qdiv (qsub (qmul b c) (qmul a d)) n)

/-- Integer power of a delegate number (used for literal integer exponents). -/
def nipow : NumVal → ℤ → NumVal
  | .nan, _ => .nan
  | .zoo, _ => .zoo
  | .rat a, n =>
      if a = 0 then (if n < 0 then .zoo else if n = 0 then .rat 1 else .rat 0)
      else if 0 ≤ n then .rat (qpowN a n.toNat) else .rat (qinv (qpowN a (-n).toNat))
  | .cplx a b, n =>
      let k := n.natAbs
      let w := (Nat.rec (motive := fun _ => ℚ × ℚ) (1, 0)
        (fun _ p => (qsub (qmul p.1 a) (qmul p.2 b), qadd (qmul p.1 b) (qmul p.2 a))) k : ℚ × ℚ)
      if n < 0 then ndiv (.rat 1) (mkCplx w.1 w.2) else mkCplx w.1 w.2

/-! ## Delegate model: symbolic expressions and automatic evaluation

Modelled from the spec: `sympify` turns the string into an internal symbolic
representation; numeric subterms are evaluated automatically during
construction (so `2 + 2` is already the number `4` after parsing, `1/0` is
already `zoo`, and `sin(pi/2)` is already `1`), while subterms containing
free symbols stay symbolic. -/

/-- Modelled from the spec: the delegate's internal symbolic representation —
numbers, the constants `pi` and `E`, free symbols, arithmetic nodes, `sin`
applications, and applications of an uninterpreted function name. -/
inductive SymExpr where
  | num : NumVal → SymExpr
  | pi : SymExpr
  | ee : SymExpr
  | sym : String → SymExpr
  | add : SymExpr → SymExpr → SymExpr
  | mul : SymExpr → SymExpr → SymExpr
  | div : SymExpr → SymExpr → SymExpr
  | pow : SymExpr → SymExpr → SymExpr
  | sinE : SymExpr → SymExpr
  | app : String → SymExpr → SymExpr
deriving DecidableEq

/-- Addition node with the delegate's automatic numeric evaluation. -/
def mkAdd : SymExpr → SymExpr → SymExpr
  | .num a, .num b => .num (nadd a b)
  | a, b => .add a b

/-- Multiplication node with the delegate's automatic numeric evaluation. -/
def mkMul : SymExpr → SymExpr → SymExpr
  | .num a, .num b => .num (nmul a b)
  | a, b => .mul a b

/-- Division node: numeric operands are divided outright; a numeric nonzero
divisor of a symbolic numerator becomes multiplication by its reciprocal
(so `pi/2` is represented as `(1/2) * pi`, as the delegate does). -/
def mkDiv : SymExpr → SymExpr → SymExpr
  | .num a, .num b => .num (ndiv a b)
  | a, .num (.rat r) =>
      if r = 0 then .mul (.num .zoo) a else mkMul (.num (.rat (qinv r))) a
  | a, b => .div a b

/-- Negation: numeric operands are negated outright, otherwise the delegate's
`(-1) * e` representation is used. -/
def mkNeg : SymExpr → SymExpr
  | .num a => .num (nneg a)
  | e => .mul (.num (.rat (-1))) e

/-- Subtraction is addition of the negation, as in the delegate. -/
def mkSub (a b : SymExpr) : SymExpr := mkAdd a (mkNeg b)

/-- Power node: a literal integer exponent of a numeric base is evaluated
outright, everything else stays a symbolic power. -/
def mkPow : SymExpr → SymExpr → SymExpr
  | .num a, .num (.rat b) => if b.den = 1 then .num (nipow a b.num) else .pow (.num a) (.num (.rat b))
  | a, b => .pow a b

/-- Value of `sin` at a rational multiple `q * pi`, for the special angles
the delegate evaluates automatically (`sin` of an integer multiple of `pi`
is `0`, of an odd multiple of `pi/2` is `±1`, of the sixths `±1/2`); `none`
when `q` is not such a special angle. -/
def sinPiRat (q : ℚ) : Option ℚ :=
  if q.den = 1 then some 0
  else if q.den = 2 then some (if q.num.emod 4 = 1 then 1 else -1)
  else if q.den = 6 then
    some (if q.num.emod 12 = 1 ∨ q.num.emod 12 = 5
      then Rat.divInt 1 2 else Rat.divInt (-1) 2)
  else none

/-- Application of `sin` with the delegate's automatic evaluation at special
points: `sin 0 = 0`, `sin pi = 0`, and `sin (q * pi)` via `sinPiRat`. -/
def mkSin : SymExpr → SymExpr
  | .num (.rat q) => if q = 0 then .num (.rat 0) else .sinE (.num (.rat q))
  | .pi => .num (.rat 0)
  | .mul (.num (.rat q)) .pi =>
      match sinPiRat q with
      | some v => .num (.rat v)
      | none => .sinE (.mul (.num (.rat q)) .pi)
  | e => .sinE e

/-! ## Delegate model: tokenization

Modelled from the spec: the delegate tokenizes the input with the host
language's tokenizer — integer and decimal literals, `j`/`J`-suffixed
imaginary literals, names, the operators `+ - * / ** ^` and parentheses.
A number immediately followed by a name (as in `4i`) produces two adjacent
tokens, which the parser then rejects. -/

/-- Modelled from the spec: one lexical token of the delegate's grammar. -/
inductive Tok where
  | num : ℚ → Tok
  | imag : ℚ → Tok
  | name : String → Tok
  | plus : Tok
  | minus : Tok
  | star : Tok
  | slash : Tok
  | powT : Tok
  | lpar : Tok
  | rpar : Tok
deriving DecidableEq

/-- Numeric value of a list of decimal digit characters. -/
def digitsVal (ds : List Char) : ℕ :=
  ds.foldl (fun a c => 10 * a + (c.toNat - 48)) 0

/-- Rational value of a decimal literal with integer-part digits `ip` and
fractional-part digits `fp`. -/
def decLit (ip fp : List Char) : ℚ :=
  Rat.divInt ((digitsVal ip * 10 ^ fp.length + digitsVal fp : ℕ) : ℤ)
    (((10 ^ fp.length : ℕ) : ℤ))

/-- Whether a character may start a name. -/
def isNameStart (c : Char) : Bool := c.isAlpha || c = '_'

/-- Whether a character may continue a name. -/
def isNameChar (c : Char) : Bool := c.isAlphanum || c = '_'

/-- Modelled from the spec: fuel-indexed tokenizer for the delegate's
grammar fragment.  Unrecognized characters are tokenization errors. -/
def tokenizeAux : ℕ → List Char → Except String (List Tok)
  | _, [] => .ok []
  | 0, _ => .error "tokenizer fuel exhausted"
  | f + 1, c :: cs =>
    if c = ' ' then tokenizeAux f cs
    else if c.isDigit then
      let p := List.span Char.isDigit (c :: cs)
      let iv : ℚ := decLit p.1 []
      match p.2 with
      | '.' :: r2 =>
          let pf := List.span Char.isDigit r2
          let v : ℚ := decLit p.1 pf.1
          match pf.2 with
          | 'j' :: r4 => (tokenizeAux f r4).map (fun ts => Tok.imag v :: ts)
          | 'J' :: r4 => (tokenizeAux f r4).map (fun ts => Tok.imag v :: ts)
          | r3 => (tokenizeAux f r3).map (fun ts => Tok.num v :: ts)
      | 'j' :: r2 => (tokenizeAux f r2).map (fun ts => Tok.imag iv :: ts)
      | 'J' :: r2 => (tokenizeAux f r2).map (fun ts => Tok.imag iv :: ts)
      | r1 => (tokenizeAux f r1).map (fun ts => Tok.num iv :: ts)
    else if c = '.' then
      match cs with
      | d :: _ =>
        if d.isDigit then
          let pf := List.span Char.isDigit cs
          let v : ℚ := decLit [] pf.1
          match pf.2 with
          | 'j' :: r4 => (tokenizeAux f r4).map (fun ts => Tok.imag v :: ts)
          | 'J' :: r4 => (tokenizeAux f r4).map (fun ts => Tok.imag v :: ts)
          | r3 => (tokenizeAux f r3).map (fun ts => Tok.num v :: ts)
        else .error "could not parse: unexpected character"
      | [] => .error "could not parse: unexpected character"
    else if isNameStart c then
      let p := List.span isNameChar (c :: cs)
      (tokenizeAux f p.2).map (fun ts => Tok.name (String.mk p.1) :: ts)
    else if c = '+' then (tokenizeAux f cs).map (fun ts => Tok.plus :: ts)
    else if c = '-' then (tokenizeAux f cs).map (fun ts => Tok.minus :: ts)
    else if c = '*' then
      match cs with
      | '*' :: r2 => (tokenizeAux f r2).map (fun ts => Tok.powT :: ts)
      | r1 => (tokenizeAux f r1).map (fun ts => Tok.star :: ts)
    else if c = '/' then (tokenizeAux f cs).map (fun ts => Tok.slash :: ts)
    else if c = '^' then (tokenizeAux f cs).map (fun ts => Tok.powT :: ts)
    else if c = '(' then (tokenizeAux f cs).map (fun ts => Tok.lpar :: ts)
    else if c = ')' then (tokenizeAux f cs).map (fun ts => Tok.rpar :: ts)
    else .error "could not parse: unexpected character"

/-- Tokenize a character list with sufficient fuel. -/
def tokenize (cs : List Char) : Except String (List Tok) :=
  tokenizeAux (cs.length + 1) cs

/-! ## Delegate model: parsing with automatic evaluation

Modelled from the spec: recursive-descent parse of the host expression
grammar (addition level, multiplication level, unary signs, powers, atoms),
building `SymExpr` values through the auto-evaluating constructors.
Adjacent atoms with no operator between them are a syntax error, as in the
host grammar. -/

/-- Name resolution: known constants, otherwise a free symbol. -/
def resolveName (n : String) : SymExpr :=
  if n = "pi" then .pi
  else if n = "I" then .num (.cplx 0 1)
  else if n = "E" then .ee
  else .sym n

/-- Function application by name: `sin` is interpreted, other names apply
an uninterpreted function. -/
def applyFn (n : String) (a : SymExpr) : SymExpr :=
  if n = "sin" then mkSin a else .app n a

mutual

/-- Modelled from the spec: addition level of the delegate parser. -/
def parseE : ℕ → List Tok → Except String (SymExpr × List Tok)
  | 0, _ => .error "parser fuel exhausted"
  | f + 1, ts => do
      let (a, r) ← parseT f ts
      parseEL f a r

/-- Left-associated chain of `+` and `-` at the addition level. -/
def parseEL : ℕ → SymExpr → List Tok → Except String (SymExpr × List Tok)
  | 0, _, _ => .error "parser fuel exhausted"
  | f + 1, a, .plus :: r => do
      let (b, r') ← parseT f r
      parseEL f (mkAdd a b) r'
  | f + 1, a, .minus :: r => do
      let (b, r') ← parseT f r
      parseEL f (mkSub a b) r'
  | _ + 1, a, r => .ok (a, r)

/-- Modelled from the spec: multiplication level of the delegate parser. -/
def parseT : ℕ → List Tok → Except String (SymExpr × List Tok)
  | 0, _ => .error "parser fuel exhausted"
  | f + 1, ts => do
      let (a, r) ← parseU f ts
      parseTL f a r

/-- Left-associated chain of `*` and `/` at the multiplication level. -/
def parseTL : ℕ → SymExpr → List Tok → Except String (SymExpr × List Tok)
  | 0, _, _ => .error "parser fuel exhausted"
  | f + 1, a, .star :: r => do
      let (b, r') ← parseU f r
      parseTL f (mkMul a b) r'
  | f + 1, a, .slash :: r => do
      let (b, r') ← parseU f r
      parseTL f (mkDiv a b) r'
  | _ + 1, a, r => .ok (a, r)

/-- Unary sign level of the delegate parser. -/
def parseU : ℕ → List Tok → Except String (SymExpr × List Tok)
  | 0, _ => .error "parser fuel exhausted"
  | f + 1, .minus :: r => do
      let (a, r') ← parseU f r
      .ok (mkNeg a, r')
  | f + 1, .plus :: r => parseU f r
  | f + 1, ts => parseP f ts

/-- Power level of the delegate parser: right-associative, with the
exponent parsed at the unary level as in the host grammar. -/
def parseP : ℕ → List Tok → Except String (SymExpr × List Tok)
  | 0, _ => .error "parser fuel exhausted"
  | f + 1, ts => do
      let (a, r) ← parseA f ts
      match r with
      | .powT :: r2 => do
          let (b, r') ← parseU f r2
          .ok (mkPow a b, r')
      | _ => .ok (a, r)

/-- Atom level of the delegate parser: literals, names, calls and
parenthesised expressions. -/
def parseA : ℕ → List Tok → Except String (SymExpr × List Tok)
  | 0, _ => .error "parser fuel exhausted"
  | _ + 1, .num q :: r => .ok (.num (.rat q), r)
  | _ + 1, .imag q :: r => .ok (.num (mkCplx 0 q), r)
  | f + 1, .name n :: .lpar :: r => do
      let (a, r') ← parseE f r
      match r' with
      | .rpar :: r2 => .ok (applyFn n a, r2)
      | _ => .error "invalid syntax"
  | _ + 1, .name n :: r => .ok (resolveName n, r)
  | f + 1, .lpar :: r => do
      let (a, r') ← parseE f r
      match r' with
      | .rpar :: r2 => .ok (a, r2)
      | _ => .error "invalid syntax"
  | _ + 1, _ => .error "invalid syntax"

end

/-- Modelled from the spec: `sympify` — tokenize, parse with sufficient
fuel, and require the whole token list to be consumed.  Any failure is the
delegate's parse failure (`SympifyError`). -/
def sympifyModel (s : String) : Except String SymExpr :=
  match tokenize s.toList with
  | .error m => .error m
  | .ok ts =>
    match parseE (5 * ts.length + 5) ts with
    | .error m => .error m
    | .ok (e, []) => .ok e
    | .ok (_, _ :: _) => .error "invalid syntax"

/-! ## Spec-side reference: standard arithmetic evaluation

Following the spec's words for the testable property on pure arithmetic:
the standard evaluation of an expression built from numeric literals and
`+ - * /` (with standard precedence, left association, unary signs and
parentheses), undefined on division by zero.  This is deliberately a second
definition, independent of the delegate model's symbolic values, to compare
the two. -/

mutual

/-- Standard evaluation, addition level. -/
def stdE : ℕ → List Tok → Option (ℚ × List Tok)
  | 0, _ => none
  | f + 1, ts => do
      let (a, r) ← stdT f ts
      stdEL f a r

/-- Standard evaluation, left-associated `+`/`-` chain. -/
def stdEL : ℕ → ℚ → List Tok → Option (ℚ × List Tok)
  | 0, _, _ => none
  | f + 1, a, .plus :: r => do
      let (b, r') ← stdT f r
      stdEL f (a + b) r'
  | f + 1, a, .minus :: r => do
      let (b, r') ← stdT f r
      stdEL f (a - b) r'
  | _ + 1, a, r => some (a, r)

/-- Standard evaluation, multiplication level. -/
def stdT : ℕ → List Tok → Option (ℚ × List Tok)
  | 0, _ => none
  | f + 1, ts => do
      let (a, r) ← stdU f ts
      stdTL f a r

/-- Standard evaluation, left-associated `*`/`/` chain; division by zero is
undefined. -/
def stdTL : ℕ → ℚ → List Tok → Option (ℚ × List Tok)
  | 0, _, _ => none
  | f + 1, a, .star :: r => do
      let (b, r') ← stdU f r
      stdTL f (a * b) r'
  | f + 1, a, .slash :: r => do
      let (b, r') ← stdU f r
      if b = 0 then none else stdTL f (a / b) r'
  | _ + 1, a, r => some (a, r)

/-- Standard evaluation, unary sign level. -/
def stdU : ℕ → List Tok → Option (ℚ × List Tok)
  | 0, _ => none
  | f + 1, .minus :: r => do
      let (a, r') ← stdU f r
      some (-a, r')
  | f + 1, .plus :: r => stdU f r
  | f + 1, ts => stdP f ts

/-- Standard evaluation, power level: the arithmetic fragment has no power
operator, so an atom followed by a power token is not an arithmetic
expression. -/
def stdP : ℕ → List Tok → Option (ℚ × List Tok)
  | 0, _ => none
  | f + 1, ts => do
      let (a, r) ← stdA f ts
      match r with
      | .powT :: _ => none
      | _ => some (a, r)

/-- Standard evaluation, atoms: numeric literals and parenthesised
expressions only — exactly the fragment of the spec's arithmetic
property. -/
def stdA : ℕ → List Tok → Option (ℚ × List Tok)
  | 0, _ => none
  | _ + 1, .num q :: r => some (q, r)
  | f + 1, .lpar :: r => do
      let (a, r') ← stdE f r
      match r' with
      | .rpar :: r2 => some (a, r2)
      | _ => none
  | _ + 1, _ => none

end

/-- Standard arithmetic value of a whole input string, when the string is a
syntactically valid arithmetic expression over numeric literals and
`+ - * /` with a defined value. -/
def stdArithEval (s : String) : Option ℚ :=
  match tokenize s.toList with
  | .error _ => none
  | .ok ts =>
    match stdE (5 * ts.length + 5) ts with
    | some (q, []) => some q
    | _ => none

/-! ## Delegate model: numeric forcing (`evalf`) and string rendering

Modelled from the spec: `evalf` forces numeric subterms to a 15-significant-
digit floating evaluation (the delegate's default precision); the printer
renders a standalone number at full precision (`"4.00000000000000"`) and
numbers inside compound expressions with trailing zeros stripped
(`"x + 1.0"`, `"18.0 - 1.0*I"`), as the source's docstrings record. -/

/-- Character of a single decimal digit. -/
def digitChar (d : ℕ) : Char := Char.ofNat (48 + d)

/-- Little-endian decimal digits of a natural number, computed with explicit
fuel so that it evaluates inside the kernel. -/
def digitsRevAux : ℕ → ℕ → List ℕ
  | 0, _ => []
  | _ + 1, 0 => []
  | f + 1, n => n % 10 :: digitsRevAux f (n / 10)

/-- Little-endian decimal digits of a natural number. -/
def digitsRev (n : ℕ) : List ℕ := digitsRevAux n n

/-- Decimal digit characters of a natural number, most significant first. -/
def natDigits (n : ℕ) : List Char :=
  if n = 0 then ['0'] else ((digitsRev n).reverse.map digitChar)

/-- Whether `10 ^ c ≤ q`, decided by integer cross-multiplication. -/
def pow10Le (c : ℤ) (q : ℚ) : Bool :=
  if 0 ≤ c then (q.den : ℤ) * ((10 ^ c.toNat : ℕ) : ℤ) ≤ q.num
  else (q.den : ℤ) ≤ q.num * ((10 ^ (-c).toNat : ℕ) : ℤ)

/-- Decimal exponent of a positive rational: the unique `z` with
`10 ^ z ≤ q < 10 ^ (z + 1)`. -/
def decExp (q : ℚ) : ℤ :=
  let c : ℤ := ((digitsRev q.num.toNat).length : ℤ) - ((digitsRev q.den).length : ℤ)
  if pow10Le c q then c else c - 1

/-- Round-to-nearest of the fraction `a / b` for a positive denominator,
computed with Euclidean integer division. -/
def roundFrac (a b : ℤ) : ℤ := (2 * a + b) / (2 * b)

/-- Mantissa (15 significant decimal digits, rounded) and decimal exponent
of a positive rational. -/
def sig15 (q : ℚ) : ℕ × ℤ :=
  ((if 0 ≤ 14 - decExp q
      then roundFrac (q.num * ((10 ^ (14 - decExp q).toNat : ℕ) : ℤ)) (q.den : ℤ)
      else roundFrac q.num ((q.den : ℤ) * ((10 ^ (-(14 - decExp q)).toNat : ℕ) : ℤ))).toNat,
    decExp q - 14)

/-- Render the value `m * 10 ^ p` as a plain decimal numeral with a decimal
point. -/
def renderDec (m : ℕ) (p : ℤ) : List Char :=
  if 0 ≤ p then
    natDigits m ++ List.replicate p.toNat '0' ++ ['.', '0']
  else
    let k := (-p).toNat
    let s := List.replicate (k + 1 - (natDigits m).length) '0' ++ natDigits m
    s.take (s.length - k) ++ '.' :: s.drop (s.length - k)

/-- Full-precision rendering of a positive rational: 15 significant digits,
as the delegate prints a standalone float. -/
def fmt15 (q : ℚ) : List Char :=
  renderDec (sig15 q).1 (sig15 q).2

/-- Full-precision rendering of any rational (sign and zero handled). -/
def fmt15S (q : ℚ) : List Char :=
  if q = 0 then ['0']
  else if q < 0 then '-' :: fmt15 (-q)
  else fmt15 q

/-- Strip trailing zeros of the fractional part, keeping at least one
digit after the point (the delegate's float display inside compound
expressions). -/
def stripFloat (s : List Char) : List Char :=
  let r := (s.reverse).dropWhile (fun c => c = '0')
  match r with
  | '.' :: _ => ('0' :: r).reverse
  | _ => r.reverse

/-- Compound-context rendering of a rational float. -/
def fmtStripped (q : ℚ) : List Char :=
  if q = 0 then ['0']
  else if q < 0 then '-' :: stripFloat (fmt15 (-q))
  else stripFloat (fmt15 q)

/-- Rendering of a complex value in the delegate's `re + im*I` form. -/
def renderCplx (a b : ℚ) : List Char :=
  if a = 0 then
    (if b < 0 then '-' :: (fmtStripped (-b) ++ ['*', 'I'])
     else fmtStripped b ++ ['*', 'I'])
  else
    fmtStripped a ++
      (if b < 0 then (' ' :: '-' :: ' ' :: fmtStripped (-b))
       else (' ' :: '+' :: ' ' :: fmtStripped b)) ++ ['*', 'I']

/-- Rendering of a numeric value in compound context. -/
def renderNumIn : NumVal → List Char
  | .rat q => fmtStripped q
  | .cplx a b => renderCplx a b
  | .zoo => ['z', 'o', 'o']
  | .nan => ['n', 'a', 'n']

/-- Rendering of a symbolic expression in compound context. -/
def renderIn : SymExpr → List Char
  | .num v => renderNumIn v
  | .pi => ['p', 'i']
  | .ee => ['E']
  | .sym s => s.toList
  | .add a (.num (.rat q)) =>
      if q < 0 then renderIn a ++ (' ' :: '-' :: ' ' :: fmtStripped (-q))
      else renderIn a ++ (' ' :: '+' :: ' ' :: fmtStripped q)
  | .add a b => renderIn a ++ (' ' :: '+' :: ' ' :: renderIn b)
  | .mul a b => renderIn a ++ '*' :: renderIn b
  | .div a b => renderIn a ++ '/' :: renderIn b
  | .pow a b => renderIn a ++ '*' :: '*' :: renderIn b
  | .sinE a => 's' :: 'i' :: 'n' :: '(' :: (renderIn a ++ [')'])
  | .app n a => n.toList ++ '(' :: (renderIn a ++ [')'])

/-- Top-level rendering: a standalone real number prints at full precision,
everything else in compound context. -/
def renderTop : SymExpr → List Char
  | .num (.rat q) => fmt15S q
  | .num v => renderNumIn v
  | e => renderIn e

/-- String form of a rendered expression. -/
def renderStr (e : SymExpr) : String := String.mk (renderTop e)

/-- Modelled from the spec: 15-digit decimal approximation of `pi` used by
the forced numeric evaluation. -/
def piApprox : ℚ := Rat.divInt 314159265358979 (10 ^ 14)

/-- Modelled from the spec: 15-digit decimal approximation of `E`. -/
def eApprox : ℚ := Rat.divInt 271828182845905 (10 ^ 14)

/-- Modelled from the spec: `evalf` — force numeric evaluation, collapsing
numeric subterms through the auto-evaluating constructors and replacing the
constants by their numeric approximations.  Applications of `sin` or of
uninterpreted functions at non-special points stay symbolic (numeric
evaluation of transcendental functions at generic points is outside the
modelled fragment). -/
def evalf : SymExpr → SymExpr
  | .num v => .num v
  | .pi => .num (.rat piApprox)
  | .ee => .num (.rat eApprox)
  | .sym s => .sym s
  | .add a b => mkAdd (evalf a) (evalf b)
  | .mul a b => mkMul (evalf a) (evalf b)
  | .div a b => mkDiv (evalf a) (evalf b)
  | .pow a b => mkPow (evalf a) (evalf b)
  | .sinE a => .sinE (evalf a)
  | .app n a => .app n (evalf a)

/-! ## The tool itself (from the source) -/

/-- Schema for the input of the CalculatorTool: one required text field
`expression` (source lines 46–50; the field declares no length constraint). -/
structure CalculatorToolInputSchema where
  expression : String
deriving DecidableEq

/-- Schema for the output of the CalculatorTool: the result of the
calculation as a string (source line 68). -/
structure CalculatorToolOutputSchema where
  result : String
deriving DecidableEq

/-- Modelled from the spec: configuration for the CalculatorTool — the base
tool configuration declares optional title/description overrides and the
calculator adds nothing (source lines 71–78; `BaseToolConfig` itself is not
part of this repository). -/
structure CalculatorToolConfig where
  title : Option String := none
  description : Option String := none
deriving DecidableEq

/-- Error taxonomy of one invocation, following the spec's names: a
validation failure of the input schema, the delegate's parse failure
(`SympifyError`, the spec's `ParseError`), or a failure of numeric
evaluation (the spec's `EvaluationError`). -/
inductive ToolError where
  | validationError : String → ToolError
  | parseError : String → ToolError
  | evaluationError : String → ToolError
deriving DecidableEq

/-- The calculator tool: it owns its configuration and nothing else
(source lines 81–114 declare no further instance state). -/
structure CalculatorTool where
  config : CalculatorToolConfig
deriving DecidableEq

/-- The `run` method (source lines 116–143): `sympify` the expression
string, force it with `evalf`, and wrap the string rendering in the output
schema.  There is no exception handling in the source, so a delegate parse
failure propagates to the caller unchanged; the tool's own state is
returned untouched. -/
def CalculatorTool.run (t : CalculatorTool) (params : CalculatorToolInputSchema) :
    CalculatorTool × Except ToolError CalculatorToolOutputSchema :=
  match sympifyModel params.expression with
  | .error m => (t, .error (.parseError m))
  | .ok parsedExpr =>
      let result := evalf parsedExpr
      (t, .ok ⟨renderStr result⟩)

/-- Validation of the raw input against the input schema (source lines
46–50): the field is required and must be text; no other constraint is
declared, so any string — including the empty string — passes. -/
def validateExpressionField : Option String → Except ToolError CalculatorToolInputSchema
  | none => .error (.validationError "Field required")
  | some s => .ok ⟨s⟩

/-- Result of running a fresh tool on an expression string. -/
def runStr (s : String) : Except ToolError CalculatorToolOutputSchema :=
  ((CalculatorTool.mk {}).run ⟨s⟩).2

/-- Full pipeline: schema validation of the raw field, then the tool run. -/
def runPipeline (raw : Option String) : Except ToolError CalculatorToolOutputSchema :=
  (validateExpressionField raw).bind (fun p => ((CalculatorTool.mk {}).run p).2)

/-! ## Decoding result strings (for stating what a result denotes) -/

/-- Parse an unsigned plain decimal numeral (`digits` or `digits.digits`). -/
def decvalCore (s : List Char) : Option ℚ :=
  let p := List.span Char.isDigit s
  if p.1 = [] then none
  else
    match p.2 with
    | [] => some (decLit p.1 [])
    | '.' :: fr =>
        if fr.all Char.isDigit && !fr.isEmpty then some (decLit p.1 fr)
        else none
    | _ => none

/-- Parse a signed plain decimal numeral. -/
def decvalL : List Char → Option ℚ
  | [] => none
  | c :: s =>
      if c = '-' then (decvalCore s).map (fun q => -q)
      else decvalCore (c :: s)

/-- The numeric value denoted by a result string, when it is a plain
decimal numeral. -/
def decvalStr (s : String) : Option ℚ := decvalL s.toList

/-- The result string denotes the rational `q` within floating-point
tolerance. -/
def denotesQ (r : String) (q : ℚ) : Prop :=
  ∃ v, decvalStr r = some v ∧ |v - q| ≤ (1 + |q|) / 10 ^ 13

/-- Split a rendered sum at the first top-level `" + "` or `" - "`
separator. -/
def splitAddSub : List Char → Option (List Char × Bool × List Char)
  | [] => none
  | ' ' :: '+' :: ' ' :: r => some ([], false, r)
  | ' ' :: '-' :: ' ' :: r => some ([], true, r)
  | c :: r => (splitAddSub r).map (fun x => (c :: x.1, x.2.1, x.2.2))

/-- Strip a trailing `*I` marker from a rendered imaginary term. -/
def stripStarI (s : List Char) : Option (List Char) :=
  match s.reverse with
  | 'I' :: '*' :: rest => some rest.reverse
  | _ => none

/-- Decode a rendered complex result into its real and imaginary parts. -/
def decodeComplex (s : String) : Option (ℚ × ℚ) :=
  match splitAddSub s.toList with
  | some (l, isM, r) =>
      match decvalL l, (stripStarI r).bind decvalL with
      | some re, some im => some (re, if isM then -im else im)
      | _, _ => none
  | none =>
      match stripStarI s.toList with
      | some c => (decvalL c).map (fun v => ((0 : ℚ), v))
      | none => (decvalL s.toList).map (fun v => (v, (0 : ℚ)))

/-! ## Supporting lemmas: the computable rational operations are the field
operations -/

theorem qadd_def (a b : ℚ) : qadd a b = a + b := by
  have ha : ((a.den : ℚ)) ≠ 0 := Nat.cast_ne_zero.mpr a.den_nz
  have hb : ((b.den : ℚ)) ≠ 0 := Nat.cast_ne_zero.mpr b.den_nz
  rw [qadd, Rat.divInt_eq_div]
  conv_rhs => rw [← Rat.num_div_den a, ← Rat.num_div_den b]
  rw [div_add_div _ _ ha hb]
  push_cast
  ring_nf

theorem qneg_def (a : ℚ) : qneg a = -a := by
  rw [qneg, Rat.divInt_eq_div]
  conv_rhs => rw [← Rat.num_div_den a]
  push_cast
  rw [neg_div]

theorem qsub_def (a b : ℚ) : qsub a b = a - b := by
  rw [qsub, qadd_def, qneg_def, sub_eq_add_neg]

theorem qmul_def (a b : ℚ) : qmul a b = a * b := by
  rw [qmul, Rat.divInt_eq_div]
  conv_rhs => rw [← Rat.num_div_den a, ← Rat.num_div_den b]
  rw [div_mul_div_comm]
  push_cast
  ring_nf

theorem qinv_def (a : ℚ) : qinv a = a⁻¹ := (Rat.inv_def' a).symm

theorem qdiv_def (a b : ℚ) : qdiv a b = a / b := by
  rcases eq_or_ne b 0 with hb | hb
  · subst hb
    simp [qdiv, Rat.divInt_zero]
  · have hbn : (b.num : ℚ) ≠ 0 := by
      exact_mod_cast Rat.num_ne_zero.mpr hb
    have ha : ((a.den : ℚ)) ≠ 0 := Nat.cast_ne_zero.mpr a.den_nz
    have hbd : ((b.den : ℚ)) ≠ 0 := Nat.cast_ne_zero.mpr b.den_nz
    rw [qdiv, Rat.divInt_eq_div]
    conv_rhs => rw [← Rat.num_div_den a, ← Rat.num_div_den b]
    push_cast
    field_simp

theorem mkAdd_num (a b : ℚ) :
    mkAdd (.num (.rat a)) (.num (.rat b)) = .num (.rat (a + b)) := by
  simp [mkAdd, nadd, qadd_def]

theorem mkSub_num (a b : ℚ) :
    mkSub (.num (.rat a)) (.num (.rat b)) = .num (.rat (a - b)) := by
  simp [mkSub, mkAdd, mkNeg, nneg, nadd, qadd_def, sub_eq_add_neg]

theorem mkMul_num (a b : ℚ) :
    mkMul (.num (.rat a)) (.num (.rat b)) = .num (.rat (a * b)) := by
  simp [mkMul, nmul, qmul_def]

theorem mkDiv_num (a b : ℚ) (hb : b ≠ 0) :
    mkDiv (.num (.rat a)) (.num (.rat b)) = .num (.rat (a / b)) := by
  simp [mkDiv, ndiv, hb, qdiv_def]

theorem mkNeg_num (a : ℚ) : mkNeg (.num (.rat a)) = .num (.rat (-a)) := by
  simp [mkNeg, nneg]

/-! ## Supporting lemmas: parser agreement with standard arithmetic -/

/-- On the arithmetic fragment, the delegate parser agrees with the standard
evaluation: whenever the standard evaluator succeeds at some level with some
fuel, the parser at the same level and fuel produces exactly that numeric
value, with the same remaining tokens. -/
theorem std_parse_agree (f : ℕ) :
    (∀ ts q r, stdE f ts = some (q, r) → parseE f ts = .ok (.num (.rat q), r)) ∧
    (∀ a ts q r, stdEL f a ts = some (q, r) →
      parseEL f (.num (.rat a)) ts = .ok (.num (.rat q), r)) ∧
    (∀ ts q r, stdT f ts = some (q, r) → parseT f ts = .ok (.num (.rat q), r)) ∧
    (∀ a ts q r, stdTL f a ts = some (q, r) →
      parseTL f (.num (.rat a)) ts = .ok (.num (.rat q), r)) ∧
    (∀ ts q r, stdU f ts = some (q, r) → parseU f ts = .ok (.num (.rat q), r)) ∧
    (∀ ts q r, stdP f ts = some (q, r) → parseP f ts = .ok (.num (.rat q), r)) ∧
    (∀ ts q r, stdA f ts = some (q, r) → parseA f ts = .ok (.num (.rat q), r)) := by
  induction f with
  | zero =>
      refine ⟨?_, ?_, ?_, ?_, ?_, ?_, ?_⟩ <;> intro _ _ _ h <;>
        first
          | simp [stdE, stdEL, stdT, stdTL, stdU, stdP, stdA] at h
          | (intro h2; simp [stdEL, stdTL] at h2)
  | succ f ih =>
    obtain ⟨ihE, ihEL, ihT, ihTL, ihU, ihP, ihA⟩ := ih
    refine ⟨?_, ?_, ?_, ?_, ?_, ?_, ?_⟩
    · intro ts q r h
      rw [stdE] at h
      cases hT : stdT f ts with
      | none => rw [hT] at h; simp at h
      | some p =>
        obtain ⟨a, r1⟩ := p
        rw [hT] at h
        simp only [bind, Option.bind] at h
        rw [parseE, ihT _ _ _ hT]
        simpa using ihEL _ _ _ _ h
    · intro a ts q r h
      cases ts with
      | nil =>
          simp [stdEL] at h
          obtain ⟨h1, h2⟩ := h
          subst h1; subst h2
          simp [parseEL]
      | cons t rest =>
        cases t with
        | plus =>
            rw [stdEL] at h
            cases hT : stdT f rest with
            | none => rw [hT] at h; simp at h
            | some p =>
              obtain ⟨b, r1⟩ := p
              rw [hT] at h
              simp only [bind, Option.bind] at h
              rw [parseEL, ihT _ _ _ hT]
              simp only [bind, Except.bind]
              rw [mkAdd_num]
              simpa using ihEL _ _ _ _ h
        | minus =>
            rw [stdEL] at h
            cases hT : stdT f rest with
            | none => rw [hT] at h; simp at h
            | some p =>
              obtain ⟨b, r1⟩ := p
              rw [hT] at h
              simp only [bind, Option.bind] at h
              rw [parseEL, ihT _ _ _ hT]
              simp only [bind, Except.bind]
              rw [mkSub_num]
              simpa using ihEL _ _ _ _ h
        | num v => simp_all [stdEL, parseEL]
        | imag v => simp_all [stdEL, parseEL]
        | name n => simp_all [stdEL, parseEL]
        | star => simp_all [stdEL, parseEL]
        | slash => simp_all [stdEL, parseEL]
        | powT => simp_all [stdEL, parseEL]
        | lpar => simp_all [stdEL, parseEL]
        | rpar => simp_all [stdEL, parseEL]
    · intro ts q r h
      rw [stdT] at h
      cases hU : stdU f ts with
      | none => rw [hU] at h; simp at h
      | some p =>
        obtain ⟨a, r1⟩ := p
        rw [hU] at h
        simp only [bind, Option.bind] at h
        rw [parseT, ihU _ _ _ hU]
        simpa using ihTL _ _ _ _ h
    · intro a ts q r h
      cases ts with
      | nil =>
          simp [stdTL] at h
          obtain ⟨h1, h2⟩ := h
          subst h1; subst h2
          simp [parseTL]
      | cons t rest =>
        cases t with
        | star =>
            rw [stdTL] at h
            cases hU : stdU f rest with
            | none => rw [hU] at h; simp at h
            | some p =>
              obtain ⟨b, r1⟩ := p
              rw [hU] at h
              simp only [bind, Option.bind] at h
              rw [parseTL, ihU _ _ _ hU]
              simp only [bind, Except.bind]
              rw [mkMul_num]
              simpa using ihTL _ _ _ _ h
        | slash =>
            rw [stdTL] at h
            cases hU : stdU f rest with
            | none => rw [hU] at h; simp at h
            | some p =>
              obtain ⟨b, r1⟩ := p
              rw [hU] at h
              simp only [bind, Option.bind] at h
              by_cases hb : b = 0
              · rw [if_pos hb] at h; simp at h
              · rw [if_neg hb] at h
                rw [parseTL, ihU _ _ _ hU]
                simp only [bind, Except.bind]
                rw [mkDiv_num _ _ hb]
                simpa using ihTL _ _ _ _ h
        | num v => simp_all [stdTL, parseTL]
        | imag v => simp_all [stdTL, parseTL]
        | name n => simp_all [stdTL, parseTL]
        | plus => simp_all [stdTL, parseTL]
        | minus => simp_all [stdTL, parseTL]
        | powT => simp_all [stdTL, parseTL]
        | lpar => simp_all [stdTL, parseTL]
        | rpar => simp_all [stdTL, parseTL]
    · intro ts q r h
      cases ts with
      | nil => exact ihP _ _ _ h
      | cons t rest =>
        cases t with
        | minus =>
            rw [stdU] at h
            cases hU : stdU f rest with
            | none => rw [hU] at h; simp at h
            | some p =>
              obtain ⟨b, r1⟩ := p
              rw [hU] at h
              simp only [bind, Option.bind, Option.some_inj] at h
              obtain ⟨h1, h2⟩ : -b = q ∧ r1 = r := Prod.mk.injEq .. ▸ h
              subst h1; subst h2
              rw [parseU, ihU _ _ _ hU]
              simp [bind, Except.bind, mkNeg_num]
        | plus => exact ihU _ _ _ h
        | num v => exact ihP _ _ _ h
        | imag v => exact ihP _ _ _ h
        | name n => exact ihP _ _ _ h
        | star => exact ihP _ _ _ h
        | slash => exact ihP _ _ _ h
        | powT => exact ihP _ _ _ h
        | lpar => exact ihP _ _ _ h
        | rpar => exact ihP _ _ _ h
    · intro ts q r h
      rw [stdP] at h
      cases hA : stdA f ts with
      | none => rw [hA] at h; simp at h
      | some p =>
        obtain ⟨a, r1⟩ := p
        rw [hA] at h
        simp only [bind, Option.bind] at h
        rw [parseP, ihA _ _ _ hA]
        simp only [bind, Except.bind]
        cases r1 with
        | nil =>
            simp at h
            obtain ⟨h1, h2⟩ := h
            subst h1; subst h2
            simp
        | cons t2 rest2 =>
          cases t2 with
          | powT => simp at h
          | num v => simp_all
          | imag v => simp_all
          | name n => simp_all
          | plus => simp_all
          | minus => simp_all
          | star => simp_all
          | slash => simp_all
          | lpar => simp_all
          | rpar => simp_all
    · intro ts q r h
      cases ts with
      | nil => simp [stdA] at h
      | cons t rest =>
        cases t with
        | num v =>
            simp [stdA] at h
            obtain ⟨h1, h2⟩ := h
            subst h1; subst h2
            simp [parseA]
        | lpar =>
            rw [stdA] at h
            cases hE : stdE f rest with
            | none => rw [hE] at h; simp at h
            | some p =>
              obtain ⟨a, r1⟩ := p
              rw [hE] at h
              simp only [bind, Option.bind] at h
              cases r1 with
              | nil => simp at h
              | cons t2 rest2 =>
                cases t2 with
                | rpar =>
                    simp at h
                    obtain ⟨h1, h2⟩ := h
                    subst h1; subst h2
                    rw [parseA, ihE _ _ _ hE]
                    simp [bind, Except.bind]
                | num v => simp at h
                | imag v => simp at h
                | name n => simp at h
                | plus => simp at h
                | minus => simp at h
                | star => simp at h
                | slash => simp at h
                | powT => simp at h
                | lpar => simp at h
        | imag v => simp [stdA] at h
        | name n => simp [stdA] at h
        | plus => simp [stdA] at h
        | minus => simp [stdA] at h
        | star => simp [stdA] at h
        | slash => simp [stdA] at h
        | powT => simp [stdA] at h
        | rpar => simp [stdA] at h

/-! ## Supporting lemmas: decimal digits and their values -/

theorem digitsRevAux_eq (f : ℕ) : ∀ n : ℕ, n ≤ f → digitsRevAux f n = Nat.digits 10 n := by
  induction f with
  | zero =>
      intro n hn
      interval_cases n
      rw [Nat.digits_zero]
      rfl
  | succ f ih =>
      intro n hn
      cases n with
      | zero =>
          rw [Nat.digits_zero]
          rfl
      | succ m =>
          rw [show digitsRevAux (f + 1) (m + 1) =
                (m + 1) % 10 :: digitsRevAux f ((m + 1) / 10) from rfl,
            Nat.digits_def' (by norm_num : (1:ℕ) < 10) (Nat.succ_pos m)]
          congr 1
          exact ih _ (Nat.lt_succ_iff.mp (Nat.lt_of_lt_of_le
            (Nat.div_lt_self (Nat.succ_pos m) (by norm_num)) hn))

theorem digitsRev_eq (n : ℕ) : digitsRev n = Nat.digits 10 n :=
  digitsRevAux_eq n n le_rfl

theorem digitsVal_go (B : List Char) : ∀ acc : ℕ,
    B.foldl (fun a c => 10 * a + (c.toNat - 48)) acc =
      acc * 10 ^ B.length + digitsVal B := by
  induction B with
  | nil => intro acc; simp [digitsVal]
  | cons c t ih =>
      intro acc
      have h3 : digitsVal (c :: t) = (c.toNat - 48) * 10 ^ t.length + digitsVal t := by
        show List.foldl (fun a c => 10 * a + (c.toNat - 48)) (10 * 0 + (c.toNat - 48)) t = _
        rw [ih]
        ring_nf
      show List.foldl (fun a c => 10 * a + (c.toNat - 48)) (10 * acc + (c.toNat - 48)) t = _
      rw [ih, h3, List.length_cons]
      ring

theorem digitsVal_append (A B : List Char) :
    digitsVal (A ++ B) = digitsVal A * 10 ^ B.length + digitsVal B := by
  simp only [digitsVal, List.foldl_append]
  exact digitsVal_go B _

theorem digitChar_toNat (d : ℕ) (h : d < 10) : (digitChar d).toNat = 48 + d := by
  interval_cases d <;> rfl

theorem digitChar_isDigit (d : ℕ) (h : d < 10) : (digitChar d).isDigit = true := by
  interval_cases d <;> rfl

theorem digitsVal_single (c : Char) : digitsVal [c] = c.toNat - 48 := by
  simp [digitsVal]

theorem digitsVal_ofDigits (ds : List ℕ) (h : ∀ d ∈ ds, d < 10) :
    digitsVal ((ds.reverse).map digitChar) = Nat.ofDigits 10 ds := by
  induction ds with
  | nil => rfl
  | cons d t ih =>
      have hd : d < 10 := h d (List.mem_cons_self d t)
      have ht : ∀ x ∈ t, x < 10 := fun x hx => h x (List.mem_cons_of_mem d hx)
      rw [List.reverse_cons, List.map_append, digitsVal_append, ih ht]
      simp only [List.map_cons, List.map_nil, List.length_cons, List.length_nil,
        digitsVal_single, pow_one, pow_zero]
      rw [digitChar_toNat d hd, Nat.ofDigits_cons]
      omega

theorem digitsVal_natDigits (m : ℕ) : digitsVal (natDigits m) = m := by
  by_cases hm : m = 0
  · subst hm; rfl
  · rw [natDigits, if_neg hm, digitsRev_eq,
      digitsVal_ofDigits _ (fun d hd => Nat.digits_lt_base (by norm_num) hd),
      Nat.ofDigits_digits]

theorem natDigits_isDigit (m : ℕ) : ∀ c ∈ natDigits m, c.isDigit = true := by
  by_cases hm : m = 0
  · subst hm
    intro c hc
    simp [natDigits] at hc
    subst hc
    rfl
  · rw [natDigits, if_neg hm]
    intro c hc
    obtain ⟨d, hd, rfl⟩ := List.mem_map.mp hc
    exact digitChar_isDigit d
      (Nat.digits_lt_base (by norm_num) (by rw [← digitsRev_eq]; exact List.mem_reverse.mp hd))

theorem natDigits_ne_nil (m : ℕ) : natDigits m ≠ [] := by
  by_cases hm : m = 0
  · subst hm; simp [natDigits]
  · rw [natDigits, if_neg hm]
    simp only [ne_eq, List.map_eq_nil_iff, List.reverse_eq_nil_iff]
    rw [digitsRev_eq]
    exact Nat.digits_ne_nil_iff_ne_zero.mpr hm

theorem digitsVal_replicate_zero (k : ℕ) : digitsVal (List.replicate k '0') = 0 := by
  induction k with
  | zero => rfl
  | succ k ih =>
      have : List.replicate (k + 1) '0' = '0' :: List.replicate k '0' := rfl
      rw [this]
      simp only [digitsVal, List.foldl_cons] at ih ⊢
      simpa using ih

/-! ## Supporting lemmas: decoding a rendered decimal string -/

theorem takeWhile_digits_append (A B : List Char)
    (hA : ∀ c ∈ A, c.isDigit = true) (hB : ∀ c ∈ B.take 1, c.isDigit = false) :
    (A ++ B).takeWhile Char.isDigit = A := by
  induction A with
  | nil =>
      cases B with
      | nil => rfl
      | cons b t =>
          have hb : b.isDigit = false := hB b (by simp)
          simp [List.takeWhile_cons, hb]
  | cons a A' ih =>
      have ha : a.isDigit = true := hA a (List.mem_cons_self a A')
      simp only [List.cons_append, List.takeWhile_cons, ha, if_true]
      rw [ih (fun c hc => hA c (List.mem_cons_of_mem a hc))]

theorem dropWhile_digits_append (A B : List Char)
    (hA : ∀ c ∈ A, c.isDigit = true) (hB : ∀ c ∈ B.take 1, c.isDigit = false) :
    (A ++ B).dropWhile Char.isDigit = B := by
  induction A with
  | nil =>
      cases B with
      | nil => rfl
      | cons b t =>
          have hb : b.isDigit = false := hB b (by simp)
          simp [List.dropWhile_cons, hb]
  | cons a A' ih =>
      have ha : a.isDigit = true := hA a (List.mem_cons_self a A')
      simp only [List.cons_append, List.dropWhile_cons, ha, if_true]
      exact ih (fun c hc => hA c (List.mem_cons_of_mem a hc))

theorem span_digits_append (A B : List Char)
    (hA : ∀ c ∈ A, c.isDigit = true) (hB : ∀ c ∈ B.take 1, c.isDigit = false) :
    List.span Char.isDigit (A ++ B) = (A, B) := by
  rw [List.span_eq_take_drop, takeWhile_digits_append A B hA hB,
    dropWhile_digits_append A B hA hB]

theorem decLit_def (ip fp : List Char) :
    decLit ip fp = (digitsVal ip : ℚ) + (digitsVal fp : ℚ) / (10 : ℚ) ^ fp.length := by
  have h10 : ((10 : ℚ)) ^ fp.length ≠ 0 := pow_ne_zero _ (by norm_num)
  rw [decLit, Rat.divInt_eq_div]
  push_cast
  rw [add_div, mul_div_cancel_right₀ _ h10]

theorem decvalCore_render (A F : List Char) (hA : ∀ c ∈ A, c.isDigit = true)
    (hF : ∀ c ∈ F, c.isDigit = true) (hAne : A ≠ []) (hFne : F ≠ []) :
    decvalCore (A ++ '.' :: F) = some (decLit A F) := by
  unfold decvalCore
  rw [span_digits_append A ('.' :: F) hA
    (by intro c hc; simp at hc; subst hc; rfl)]
  have hall : F.all Char.isDigit = true := List.all_eq_true.mpr hF
  have hne : F.isEmpty = false := by
    cases F with
    | nil => exact absurd rfl hFne
    | cons c t => rfl
  simp [hAne, hall, hne]

theorem decvalCore_render_int (A : List Char) (hA : ∀ c ∈ A, c.isDigit = true)
    (hAne : A ≠ []) : decvalCore A = some (decLit A []) := by
  unfold decvalCore
  have hsp : List.span Char.isDigit A = (A, []) := by
    have := span_digits_append A [] hA (by simp)
    simpa using this
  rw [hsp]
  simp [hAne]

theorem decvalL_of_digit_head (c : Char) (t : List Char) (hc : c.isDigit = true) :
    decvalL (c :: t) = decvalCore (c :: t) := by
  rw [decvalL, if_neg]
  intro h
  rw [h] at hc
  exact absurd hc (by decide)

theorem decvalCore_renderDec (m : ℕ) (p : ℤ) :
    decvalCore (renderDec m p) = some ((m : ℚ) * (10 : ℚ) ^ p) := by
  rcases le_or_lt 0 p with hp | hp
  · -- nonnegative exponent: digits, padding zeros, then ".0"
    rw [renderDec, if_pos hp]
    set A : List Char := natDigits m ++ List.replicate p.toNat '0' with hA
    have hAd : ∀ c ∈ A, c.isDigit = true := by
      intro c hc
      rcases List.mem_append.mp hc with h1 | h2
      · exact natDigits_isDigit m c h1
      · rw [List.eq_of_mem_replicate h2]; rfl
    have hAne : A ≠ [] := by
      rw [hA]
      intro hcon
      exact natDigits_ne_nil m (List.append_eq_nil.mp hcon).1
    have hshape : natDigits m ++ List.replicate p.toNat '0' ++ ['.', '0'] =
        A ++ '.' :: ['0'] := by rw [hA]
    rw [hshape]
    rw [decvalCore_render A ['0'] hAd (by intro x hx; simp at hx; subst hx; rfl)
        hAne (by simp), decLit_def]
    have hvA : digitsVal A = m * 10 ^ p.toNat := by
      rw [hA, digitsVal_append, digitsVal_natDigits, digitsVal_replicate_zero,
        List.length_replicate, Nat.add_zero]
    have hz : (10 : ℚ) ^ p = (10 : ℚ) ^ (p.toNat : ℕ) := by
      rw [← zpow_natCast (10 : ℚ) p.toNat, Int.toNat_of_nonneg hp]
    rw [hvA, hz]
    have : digitsVal ['0'] = 0 := rfl
    rw [this]
    push_cast
    ring_nf
  · -- negative exponent: pad, split at the decimal point
    rw [renderDec, if_neg (not_le.mpr hp)]
    dsimp only
    set k := (-p).toNat with hk
    have hk1 : 1 ≤ k := by
      rw [hk]
      omega
    set D : List Char := natDigits m with hD
    set s : List Char := List.replicate (k + 1 - D.length) '0' ++ D with hs
    have hsd : ∀ c ∈ s, c.isDigit = true := by
      intro c hc
      rcases List.mem_append.mp hc with h1 | h2
      · rw [List.eq_of_mem_replicate h1]; rfl
      · exact natDigits_isDigit m c h2
    have hsL : k + 1 ≤ s.length := by
      rw [hs, List.length_append, List.length_replicate]
      omega
    set A : List Char := s.take (s.length - k) with hAdef
    set F : List Char := s.drop (s.length - k) with hFdef
    have hAd : ∀ c ∈ A, c.isDigit = true := fun c hc => hsd c (List.take_subset _ _ hc)
    have hFd : ∀ c ∈ F, c.isDigit = true := fun c hc => hsd c (List.drop_subset _ _ hc)
    have hAlen : A.length = s.length - k := by
      rw [hAdef, List.length_take]
      omega
    have hFlen : F.length = k := by
      rw [hFdef, List.length_drop]
      omega
    have hAne : A ≠ [] := by
      intro hcon
      have := hAlen
      rw [hcon] at this
      simp at this
      omega
    have hFne : F ≠ [] := by
      intro hcon
      rw [hcon] at hFlen
      simp at hFlen
      omega
    have hcomb : digitsVal A * 10 ^ k + digitsVal F = m := by
      have h1 : A ++ F = s := List.take_append_drop _ _
      have h2 : digitsVal (A ++ F) = digitsVal A * 10 ^ F.length + digitsVal F :=
        digitsVal_append A F
      rw [h1] at h2
      have h3 : digitsVal s = m := by
        rw [hs, digitsVal_append, digitsVal_replicate_zero, digitsVal_natDigits]
        simp
      rw [h3, hFlen] at h2
      omega
    rw [decvalCore_render A F hAd hFd hAne hFne, decLit_def]
    have hzp : (10 : ℚ) ^ p = ((10 : ℚ) ^ (k : ℕ))⁻¹ := by
      have hpk : p = -(k : ℤ) := by
        rw [hk]
        omega
      rw [hpk, zpow_neg, zpow_natCast]
    rw [hFlen, hzp, mul_comm, inv_mul_eq_div]
    congr 1
    have h10 : ((10 : ℚ)) ^ (k : ℕ) ≠ 0 := pow_ne_zero _ (by norm_num)
    rw [eq_div_iff h10, add_mul, div_mul_cancel₀ _ h10]
    exact_mod_cast hcomb

theorem decvalCore_head (l : List Char) (v : ℚ) (h : decvalCore l = some v) :
    ∃ c t, l = c :: t ∧ c.isDigit = true := by
  cases l with
  | nil => simp [decvalCore, List.span_eq_take_drop] at h
  | cons c t =>
      refine ⟨c, t, rfl, ?_⟩
      by_contra hc
      rw [Bool.not_eq_true] at hc
      rw [decvalCore, List.span_eq_take_drop] at h
      simp [List.takeWhile_cons, hc] at h

theorem decvalL_renderDec (m : ℕ) (p : ℤ) :
    decvalL (renderDec m p) = some ((m : ℚ) * (10 : ℚ) ^ p) := by
  have hcore := decvalCore_renderDec m p
  obtain ⟨c, t, hct, hc⟩ := decvalCore_head _ _ hcore
  rw [hct] at hcore ⊢
  rw [decvalL_of_digit_head c t hc]
  exact hcore

/-! ## Supporting lemmas: the 15-significant-digit approximation -/

theorem roundFrac_approx (a b : ℤ) (hb : 0 < b) :
    |((roundFrac a b : ℤ) : ℚ) - (a : ℚ) / (b : ℚ)| ≤ 1 / 2 := by
  have h2b : (0:ℤ) < 2 * b := by omega
  have hbq : (0:ℚ) < (b : ℚ) := by exact_mod_cast hb
  have h2bq : (0:ℚ) < ((2 * b : ℤ) : ℚ) := by exact_mod_cast h2b
  have hkey : 2 * b * roundFrac a b + (2 * a + b) % (2 * b) = 2 * a + b := by
    rw [roundFrac]
    exact Int.ediv_add_emod (2 * a + b) (2 * b)
  set r := (2 * a + b) % (2 * b) with hr
  have hr0 : (0:ℤ) ≤ r := Int.emod_nonneg _ (by omega)
  have hrlt : r < 2 * b := Int.emod_lt_of_pos _ h2b
  have hq : ((roundFrac a b : ℤ) : ℚ) = ((2*a + b - r : ℤ) : ℚ) / ((2*b : ℤ) : ℚ) := by
    rw [eq_div_iff (ne_of_gt h2bq)]
    have : roundFrac a b * (2 * b) = 2*a + b - r := by linarith [hkey]
    exact_mod_cast congrArg (fun z : ℤ => (z : ℚ)) this
  rw [hq]
  have hdiff : ((2*a + b - r : ℤ) : ℚ) / ((2*b : ℤ) : ℚ) - (a:ℚ)/(b:ℚ) =
      ((b - r : ℤ) : ℚ) / ((2*b : ℤ) : ℚ) := by
    field_simp
    ring_nf
  rw [hdiff, abs_div, abs_of_pos h2bq, div_le_div_iff₀ h2bq (by norm_num)]
  have hr0' : (0:ℚ) ≤ (r : ℚ) := by exact_mod_cast hr0
  have hrlt' : (r:ℚ) < ((2*b : ℤ):ℚ) := by exact_mod_cast hrlt
  have habs : |((b - r : ℤ) : ℚ)| ≤ (b:ℚ) := by
    rw [abs_le]
    push_cast at hrlt' ⊢
    constructor <;> linarith
  push_cast at habs ⊢
  linarith

theorem pow10Le_iff (c : ℤ) (q : ℚ) :
    pow10Le c q = true ↔ (10 : ℚ) ^ c ≤ q := by
  have hdpos : (0 : ℚ) < (q.den : ℚ) := by exact_mod_cast q.den_pos
  have hqq : q = (q.num : ℚ) / (q.den : ℚ) := (Rat.num_div_den q).symm
  rw [pow10Le]
  split_ifs with hc
  · rw [decide_eq_true_eq]
    have h1 : (10 : ℚ) ^ c = (10:ℚ) ^ c.toNat := by
      rw [← zpow_natCast (10:ℚ) c.toNat, Int.toNat_of_nonneg hc]
    rw [h1]
    conv_rhs => rw [hqq]
    rw [le_div_iff₀ hdpos]
    constructor
    · intro h
      have h' : ((q.den:ℚ)) * (10:ℚ) ^ c.toNat ≤ (q.num:ℚ) := by exact_mod_cast h
      linarith
    · intro h
      have h' : ((q.den:ℚ)) * (10:ℚ) ^ c.toNat ≤ (q.num:ℚ) := by linarith
      exact_mod_cast h'
  · rw [decide_eq_true_eq]
    push_neg at hc
    set k := (-c).toNat with hk
    have hck : c = -(k : ℤ) := by rw [hk]; omega
    have h1 : (10 : ℚ) ^ c = ((10:ℚ) ^ k)⁻¹ := by rw [hck, zpow_neg, zpow_natCast]
    have hkpos : (0:ℚ) < (10:ℚ) ^ k := by positivity
    rw [h1, inv_le_iff_one_le_mul₀ hkpos]
    conv_rhs => rw [hqq]
    rw [div_mul_eq_mul_div, le_div_iff₀ hdpos, one_mul]
    constructor
    · intro h
      have h' : ((q.den:ℚ)) ≤ (q.num:ℚ) * (10:ℚ) ^ k := by exact_mod_cast h
      linarith
    · intro h
      have h' : ((q.den:ℚ)) ≤ (q.num:ℚ) * (10:ℚ) ^ k := by linarith
      exact_mod_cast h'

theorem decExp_spec (q : ℚ) (hq : 0 < q) :
    (10:ℚ) ^ (decExp q) ≤ q ∧ q < (10:ℚ) ^ (decExp q + 1) := by
  have hnum : 0 < q.num := Rat.num_pos.mpr hq
  have hna : q.num.toNat ≠ 0 := by omega
  have hd0 : q.den ≠ 0 := q.den_nz
  have hdpos : (0 : ℚ) < (q.den : ℚ) := by exact_mod_cast q.den_pos
  set na := q.num.toNat with hna_def
  set d := q.den with hd_def
  set a := (digitsRev na).length with ha_def
  set b := (digitsRev d).length with hb_def
  have ha1 : 1 ≤ a := by
    rw [ha_def, digitsRev_eq]
    exact List.length_pos.mpr (Nat.digits_ne_nil_iff_ne_zero.mpr hna)
  have hb1 : 1 ≤ b := by
    rw [hb_def, digitsRev_eq]
    exact List.length_pos.mpr (Nat.digits_ne_nil_iff_ne_zero.mpr hd0)
  have hn1 : 10 ^ (a - 1) ≤ na := by
    rw [ha_def, digitsRev_eq, Nat.digits_len 10 na (by norm_num) hna]
    simpa using Nat.pow_log_le_self 10 hna
  have hn2 : na < 10 ^ a := by
    rw [ha_def, digitsRev_eq, Nat.digits_len 10 na (by norm_num) hna]
    exact Nat.lt_pow_succ_log_self (by norm_num) na
  have hdl1 : 10 ^ (b - 1) ≤ d := by
    rw [hb_def, digitsRev_eq, Nat.digits_len 10 d (by norm_num) hd0]
    simpa using Nat.pow_log_le_self 10 hd0
  have hdl2 : d < 10 ^ b := by
    rw [hb_def, digitsRev_eq, Nat.digits_len 10 d (by norm_num) hd0]
    exact Nat.lt_pow_succ_log_self (by norm_num) d
  have hnaq : (q.num : ℚ) = (na : ℚ) := by
    rw [hna_def]
    exact_mod_cast congrArg (fun z : ℤ => (z : ℚ)) (Int.toNat_of_nonneg hnum.le).symm
  have hnapos : (0:ℚ) < (na : ℚ) := by
    have : 0 < na := Nat.pos_of_ne_zero hna
    exact_mod_cast this
  have hqq : q = (na : ℚ) / (d : ℚ) := by
    rw [← hnaq, hd_def]
    exact (Rat.num_div_den q).symm
  have hA1 : (10:ℚ) ^ ((a:ℤ) - 1) ≤ (na : ℚ) := by
    have he : ((a - 1 : ℕ) : ℤ) = (a:ℤ) - 1 := by omega
    rw [← he, zpow_natCast]
    exact_mod_cast hn1
  have hA2 : (na : ℚ) < (10:ℚ) ^ ((a:ℤ)) := by
    rw [zpow_natCast]
    exact_mod_cast hn2
  have hB1 : (10:ℚ) ^ ((b:ℤ) - 1) ≤ (d : ℚ) := by
    have he : ((b - 1 : ℕ) : ℤ) = (b:ℤ) - 1 := by omega
    rw [← he, zpow_natCast]
    exact_mod_cast hdl1
  have hB2 : (d : ℚ) < (10:ℚ) ^ ((b:ℤ)) := by
    rw [zpow_natCast]
    exact_mod_cast hdl2
  set c : ℤ := (a : ℤ) - (b : ℤ) with hc_def
  have hten : (10:ℚ) ≠ 0 := by norm_num
  have hlow : (10:ℚ) ^ (c - 1) < q := by
    have hsplit : (10:ℚ) ^ (c - 1) = (10:ℚ) ^ ((a:ℤ) - 1) / (10:ℚ) ^ ((b:ℤ)) := by
      rw [← zpow_sub₀ hten]
      congr 1
      rw [hc_def]
      ring
    rw [hsplit, hqq]
    calc (10:ℚ) ^ ((a:ℤ) - 1) / (10:ℚ) ^ ((b:ℤ))
        ≤ (na : ℚ) / (10:ℚ) ^ ((b:ℤ)) :=
          (div_le_div_iff_of_pos_right (by positivity)).mpr hA1
      _ < (na : ℚ) / (d : ℚ) := div_lt_div_of_pos_left hnapos hdpos hB2
  have hhigh : q < (10:ℚ) ^ (c + 1) := by
    have hsplit : (10:ℚ) ^ (c + 1) = (10:ℚ) ^ ((a:ℤ)) / (10:ℚ) ^ ((b:ℤ) - 1) := by
      rw [← zpow_sub₀ hten]
      congr 1
      rw [hc_def]
      ring
    rw [hsplit, hqq]
    have hbpos : (0:ℚ) < (10:ℚ) ^ ((b:ℤ) - 1) := by positivity
    calc (na : ℚ) / (d : ℚ)
        < (10:ℚ) ^ ((a:ℤ)) / (d : ℚ) := (div_lt_div_iff_of_pos_right hdpos).mpr hA2
      _ ≤ (10:ℚ) ^ ((a:ℤ)) / (10:ℚ) ^ ((b:ℤ) - 1) :=
          div_le_div_of_nonneg_left (by positivity) hbpos hB1
  rw [decExp]
  by_cases hpl : pow10Le c q = true
  · rw [if_pos hpl]
    exact ⟨(pow10Le_iff c q).mp hpl, hhigh⟩
  · rw [if_neg hpl]
    constructor
    · exact le_of_lt hlow
    · have : ¬ (10:ℚ) ^ c ≤ q := fun hcon => hpl ((pow10Le_iff c q).mpr hcon)
      have h2 : q < (10:ℚ) ^ c := not_le.mp this
      simpa using h2

theorem sig15_approx (q : ℚ) (hq : 0 < q) :
    |((sig15 q).1 : ℚ) * (10:ℚ) ^ (sig15 q).2 - q| ≤ q / 10 ^ 13 := by
  obtain ⟨hle, hlt⟩ := decExp_spec q hq
  have hten : (10:ℚ) ≠ 0 := by norm_num
  have hdposq : (0:ℚ) < (q.den : ℚ) := by exact_mod_cast q.den_pos
  have hdpos : (0:ℤ) < (q.den : ℤ) := by exact_mod_cast q.den_pos
  -- the rounded mantissa and its bound
  have key : ∃ m : ℤ,
      sig15 q = (m.toNat, decExp q - 14) ∧
      |(m : ℚ) - q * (10:ℚ) ^ ((14 : ℤ) - decExp q)| ≤ 1 / 2 := by
    by_cases hcase : 0 ≤ 14 - decExp q
    · refine ⟨roundFrac (q.num * ((10 ^ (14 - decExp q).toNat : ℕ) : ℤ)) (q.den : ℤ), ?_, ?_⟩
      · rw [sig15, if_pos hcase]
      · have hab : ((q.num * ((10 ^ (14 - decExp q).toNat : ℕ) : ℤ) : ℤ) : ℚ) /
            ((q.den : ℤ) : ℚ) = q * (10:ℚ) ^ ((14 : ℤ) - decExp q) := by
          have hz : (10:ℚ) ^ ((14 : ℤ) - decExp q) =
              (10:ℚ) ^ ((14 - decExp q).toNat : ℕ) := by
            rw [← zpow_natCast (10:ℚ) (14 - decExp q).toNat, Int.toNat_of_nonneg hcase]
          rw [hz]
          push_cast
          rw [mul_div_right_comm, Rat.num_div_den]
        have := roundFrac_approx (q.num * ((10 ^ (14 - decExp q).toNat : ℕ) : ℤ))
          (q.den : ℤ) hdpos
        rw [hab] at this
        simpa using this
    · refine ⟨roundFrac q.num ((q.den : ℤ) * ((10 ^ (-(14 - decExp q)).toNat : ℕ) : ℤ)), ?_, ?_⟩
      · rw [sig15, if_neg hcase]
      · push_neg at hcase
        have hbpos : (0:ℤ) < (q.den : ℤ) * ((10 ^ (-(14 - decExp q)).toNat : ℕ) : ℤ) := by
          positivity
        have hab : ((q.num : ℤ) : ℚ) /
            (((q.den : ℤ) * ((10 ^ (-(14 - decExp q)).toNat : ℕ) : ℤ) : ℤ) : ℚ) =
            q * (10:ℚ) ^ ((14 : ℤ) - decExp q) := by
          have hz : (10:ℚ) ^ ((14 : ℤ) - decExp q) =
              ((10:ℚ) ^ ((-(14 - decExp q)).toNat : ℕ))⁻¹ := by
            rw [← zpow_natCast (10:ℚ) (-(14 - decExp q)).toNat,
              Int.toNat_of_nonneg (by omega : (0:ℤ) ≤ -(14 - decExp q)), zpow_neg, inv_inv]
          rw [hz]
          push_cast
          rw [div_mul_eq_div_div, div_eq_mul_inv, Rat.num_div_den]
        have := roundFrac_approx q.num
          ((q.den : ℤ) * ((10 ^ (-(14 - decExp q)).toNat : ℕ) : ℤ)) hbpos
        rw [hab] at this
        simpa using this
  obtain ⟨m, hsig, hround⟩ := key
  have h14 : (10:ℚ) ^ ((14:ℤ)) ≤ q * (10:ℚ) ^ ((14 : ℤ) - decExp q) := by
    have hsplit : (10:ℚ) ^ ((14:ℤ)) =
        (10:ℚ) ^ (decExp q) * (10:ℚ) ^ ((14 : ℤ) - decExp q) := by
      rw [← zpow_add₀ hten]
      congr 1
      ring
    rw [hsplit]
    exact mul_le_mul_of_nonneg_right hle (by positivity)
  have h14big : (1:ℚ) ≤ (10:ℚ) ^ ((14:ℤ)) := by
    rw [show ((14:ℤ)) = ((14:ℕ) : ℤ) from rfl, zpow_natCast]
    norm_num
  have hmpos : (0:ℚ) < (m : ℚ) := by
    have h1 := (abs_le.mp hround).1
    linarith
  have hm0 : (0:ℤ) ≤ m := by exact_mod_cast hmpos.le
  rw [hsig]
  have hcast : (((m.toNat, decExp q - 14).1 : ℕ) : ℚ) = (m : ℚ) := by
    simp only
    exact_mod_cast congrArg (fun z : ℤ => (z : ℚ)) (Int.toNat_of_nonneg hm0)
  rw [hcast]
  have hprod : (10:ℚ) ^ (decExp q - 14) * (10:ℚ) ^ ((14 : ℤ) - decExp q) = 1 := by
    rw [← zpow_add₀ hten, show decExp q - 14 + (14 - decExp q) = 0 by ring, zpow_zero]
  have hdecomp : (m:ℚ) * (10:ℚ) ^ ((decExp q - 14 : ℤ)) - q =
      (10:ℚ) ^ ((decExp q - 14 : ℤ)) *
        ((m:ℚ) - q * (10:ℚ) ^ ((14 : ℤ) - decExp q)) := by
    have h := hprod
    linear_combination (q : ℚ) * h
  have hpos1 : (0:ℚ) < (10:ℚ) ^ ((decExp q - 14 : ℤ)) := by positivity
  have hz14 : (10:ℚ) ^ ((decExp q - 14 : ℤ)) ≤ q * (10:ℚ) ^ ((-14 : ℤ)) := by
    have hsplit : (10:ℚ) ^ ((decExp q - 14 : ℤ)) =
        (10:ℚ) ^ (decExp q) * (10:ℚ) ^ ((-14 : ℤ)) := by
      rw [← zpow_add₀ hten, show decExp q + (-14 : ℤ) = decExp q - 14 by ring]
    rw [hsplit]
    exact mul_le_mul_of_nonneg_right hle (by positivity)
  have hfin : q * (10:ℚ) ^ ((-14 : ℤ)) * (1/2) ≤ q / 10 ^ 13 := by
    have h1 : (10:ℚ) ^ ((-14 : ℤ)) = ((10:ℚ) ^ (14:ℕ))⁻¹ := by
      rw [show ((-14 : ℤ)) = -((14:ℕ) : ℤ) from rfl, zpow_neg, zpow_natCast]
    have h2 : ((10:ℚ) ^ (14:ℕ))⁻¹ * (1/2) = ((2 * 10 ^ 14 : ℚ))⁻¹ := by
      rw [mul_inv]
      ring
    have h3 : ((2 * 10 ^ 14 : ℚ))⁻¹ ≤ ((10:ℚ) ^ 13)⁻¹ :=
      inv_anti₀ (by positivity) (by norm_num)
    rw [h1, div_eq_mul_inv q]
    calc q * ((10:ℚ) ^ (14:ℕ))⁻¹ * (1/2) = q * ((2 * 10 ^ 14 : ℚ))⁻¹ := by ring
      _ ≤ q * ((10:ℚ) ^ 13)⁻¹ := mul_le_mul_of_nonneg_left h3 hq.le
  calc |(m:ℚ) * (10:ℚ) ^ ((decExp q - 14 : ℤ)) - q|
      = (10:ℚ) ^ ((decExp q - 14 : ℤ)) *
          |(m:ℚ) - q * (10:ℚ) ^ ((14 : ℤ) - decExp q)| := by
        rw [hdecomp, abs_mul, abs_of_pos hpos1]
    _ ≤ (10:ℚ) ^ ((decExp q - 14 : ℤ)) * (1/2) :=
        mul_le_mul_of_nonneg_left hround hpos1.le
    _ ≤ q * (10:ℚ) ^ ((-14 : ℤ)) * (1/2) :=
        mul_le_mul_of_nonneg_right hz14 (by norm_num)
    _ ≤ q / 10 ^ 13 := hfin

/-- The full-precision rendering of any rational denotes it within the
floating-point tolerance. -/
theorem decvalL_fmt15S (q : ℚ) :
    ∃ v, decvalL (fmt15S q) = some v ∧ |v - q| ≤ (1 + |q|) / 10 ^ 13 := by
  rcases lt_trichotomy q 0 with hneg | hzero | hpos
  · rw [fmt15S, if_neg (ne_of_lt hneg), if_pos hneg]
    have hq' : 0 < -q := by linarith
    have hcore : decvalCore (fmt15 (-q)) =
        some (((sig15 (-q)).1 : ℚ) * (10:ℚ) ^ ((sig15 (-q)).2)) := by
      rw [fmt15]
      exact decvalCore_renderDec _ _
    refine ⟨-(((sig15 (-q)).1 : ℚ) * (10:ℚ) ^ ((sig15 (-q)).2)), ?_, ?_⟩
    · rw [decvalL, if_pos rfl, hcore]
      rfl
    · have hb := sig15_approx (-q) hq'
      rw [show -(((sig15 (-q)).1 : ℚ) * (10:ℚ) ^ ((sig15 (-q)).2)) - q =
          -((((sig15 (-q)).1 : ℚ) * (10:ℚ) ^ ((sig15 (-q)).2)) - (-q)) by ring, abs_neg]
      have habs : |q| = -q := abs_of_neg hneg
      calc |(((sig15 (-q)).1 : ℚ) * (10:ℚ) ^ ((sig15 (-q)).2)) - (-q)|
          ≤ (-q) / 10 ^ 13 := hb
        _ ≤ (1 + |q|) / 10 ^ 13 := by
            rw [habs]
            exact (div_le_div_iff_of_pos_right (by norm_num)).mpr (by linarith)
  · subst hzero
    refine ⟨0, ?_, by norm_num⟩
    rw [fmt15S, if_pos rfl]
    rfl
  · rw [fmt15S, if_neg (ne_of_gt hpos), if_neg (not_lt.mpr hpos.le)]
    refine ⟨((sig15 q).1 : ℚ) * (10:ℚ) ^ ((sig15 q).2), ?_, ?_⟩
    · rw [fmt15]
      exact decvalL_renderDec _ _
    · have hb := sig15_approx q hpos
      have habs : |q| = q := abs_of_pos hpos
      calc |(((sig15 q).1 : ℚ) * (10:ℚ) ^ ((sig15 q).2)) - q|
          ≤ q / 10 ^ 13 := hb
        _ ≤ (1 + |q|) / 10 ^ 13 := by
            rw [habs]
            exact (div_le_div_iff_of_pos_right (by norm_num)).mpr (by linarith)

/-- A standard arithmetic evaluation of the whole input implies the delegate
parses the same input to exactly that number. -/
theorem sympify_of_stdArith (s : String) (q : ℚ) (h : stdArithEval s = some q) :
    sympifyModel s = .ok (.num (.rat q)) := by
  rw [stdArithEval] at h
  cases htok : tokenize s.toList with
  | error m => rw [htok] at h; simp at h
  | ok ts =>
      rw [htok] at h
      dsimp only at h
      cases hstd : stdE (5 * ts.length + 5) ts with
      | none => rw [hstd] at h; simp at h
      | some p =>
          obtain ⟨q', r⟩ := p
          rw [hstd] at h
          cases r with
          | cons t rest => simp at h
          | nil =>
              simp only [Option.some_inj] at h
              subst h
              have hagree := (std_parse_agree (5 * ts.length + 5)).1 ts q' [] hstd
              rw [sympifyModel, htok]
              dsimp only
              rw [hagree]

/-! ## Claim theorems -/

/-- C1: for every input request, `run` hands the expression string unmodified
to the delegate parser, forces the parsed symbolic representation to a
numeric evaluation, and returns the string rendering of that value — the
result field equals `str(sympify(params.expression).evalf())`. -/
theorem run_is_str_evalf_sympify (t : CalculatorTool) (p : CalculatorToolInputSchema) :
    (t.run p).2 =
      ((sympifyModel p.expression).map
        (fun e => CalculatorToolOutputSchema.mk (renderStr (evalf e)))).mapError
        ToolError.parseError := by
  cases h : sympifyModel p.expression <;>
    simp [CalculatorTool.run, h, Except.map, Except.mapError]

/-- C2 counterexample: on the empty-string expression the failure is the
delegate's parse error, not a local validation error — the claimed
fail-fast validation does not happen. -/
theorem empty_string_yields_delegate_parse_error :
    runStr "" = .error (ToolError.parseError "invalid syntax") := by rfl

/-- C2 amended: the input schema accepts the empty string (the field only
requires a string to be present), so the empty expression is delegated and
fails with the delegate's parse error rather than a validation error. -/
theorem empty_string_passes_validation_fails_at_delegate :
    validateExpressionField (some "") = .ok ⟨""⟩ ∧
      sympifyModel "" = .error "invalid syntax" ∧
      runPipeline (some "") = .error (ToolError.parseError "invalid syntax") := by
  refine ⟨rfl, by rfl, by rfl⟩

/-- C3: every expression string the delegate cannot parse makes `run` fail
with a `ParseError` (the delegate's `SympifyError`, carried unchanged). -/
theorem invalid_syntax_fails_with_parse_error (s : String) (m : String)
    (h : sympifyModel s = .error m) :
    runStr s = .error (ToolError.parseError m) := by
  simp [runStr, CalculatorTool.run, h]

/-- C3 witness: the malformed expression `2 +` fails with a `ParseError`. -/
theorem invalid_syntax_fails_with_parse_error_witness :
    runStr "2 +" = .error (ToolError.parseError "invalid syntax") :=
  invalid_syntax_fails_with_parse_error "2 +" "invalid syntax" (by rfl)

/-- C4: division by zero does not raise — the delegate returns its fixed
infinity marker `zoo`, deterministically, and `run` returns that marker
string for division-by-zero inputs. -/
theorem div_zero_returns_zoo_marker :
    runStr "1/0" = .ok ⟨"zoo"⟩ ∧ runStr "2/0" = .ok ⟨"zoo"⟩ ∧
      runStr "1/(3-3)" = .ok ⟨"zoo"⟩ := by
  refine ⟨by rfl, by rfl, by rfl⟩

/-- C5: `run` is pure and stateless — it returns the tool unchanged, and a
second invocation on the same expression yields the identical result. -/
theorem run_pure_and_deterministic (t : CalculatorTool) (p : CalculatorToolInputSchema) :
    (t.run p).1 = t ∧ (((t.run p).1).run p).2 = (t.run p).2 := by
  cases h : sympifyModel p.expression <;>
    simp [CalculatorTool.run, h]

/-- C6: for every syntactically valid arithmetic expression built from
numeric literals and the operators `+ - * /` (with parentheses and unary
signs) whose standard value is defined, `run` succeeds and the result
string denotes that standard value within floating-point tolerance. -/
theorem arith_expression_evaluates_standard (s : String) (q : ℚ)
    (h : stdArithEval s = some q) :
    runStr s = .ok ⟨String.mk (fmt15S q)⟩ ∧ denotesQ (String.mk (fmt15S q)) q := by
  have hs := sympify_of_stdArith s q h
  constructor
  · simp [runStr, CalculatorTool.run, hs, evalf, renderStr, renderTop]
  · obtain ⟨v, hv, hb⟩ := decvalL_fmt15S q
    exact ⟨v, hv, hb⟩

/-- C6 witness: the spec's own example `2 * 3 + 4` evaluates to a string
denoting `10`. -/
theorem arith_expression_evaluates_standard_witness :
    runStr "2 * 3 + 4" = .ok ⟨String.mk (fmt15S 10)⟩ ∧
      denotesQ (String.mk (fmt15S 10)) 10 :=
  arith_expression_evaluates_standard "2 * 3 + 4" 10 (by with_unfolding_all rfl)

/-- C7 counterexample: with the `i` spelling of the imaginary unit the
delegate's tokenizer produces a number immediately followed by a name, which
is a syntax error — `run` fails instead of succeeding. -/
theorem complex_i_suffix_is_parse_error :
    runStr "(3 + 4i) * (2 - 3i)" = .error (ToolError.parseError "invalid syntax") := by
  rfl

/-- C7 amended: with the delegate's imaginary-literal syntax (`j` suffix, as
in the source's own example list), the complex product evaluates and the
result string encodes real part `18` and imaginary part `-1`. -/
theorem complex_j_product_encodes_both_parts :
    runStr "(3 + 4j) * (2 - 3j)" = .ok ⟨"18.0 - 1.0*I"⟩ ∧
      decodeComplex "18.0 - 1.0*I" = some (18, -1) := by
  refine ⟨by rfl, by rfl⟩

/-- C8: evaluating `sin(pi/2)` returns a result string denoting the value
`1` within tolerance. -/
theorem sin_pi_half_denotes_one :
    runStr "sin(pi/2)" = .ok ⟨"1.00000000000000"⟩ ∧
      denotesQ "1.00000000000000" 1 := by
  refine ⟨by rfl, 1, by rfl, by norm_num⟩

/-- C9: whenever the delegate fails, the failure surfaces through the whole
pipeline to the caller carrying the delegate's own message, with no
catching, masking or transformation and no retry. -/
theorem delegate_failure_surfaces_unchanged (raw : Option String)
    (p : CalculatorToolInputSchema) (m : String)
    (hv : validateExpressionField raw = .ok p)
    (hp : sympifyModel p.expression = .error m) :
    runPipeline raw = .error (ToolError.parseError m) := by
  simp [runPipeline, hv, CalculatorTool.run, hp, Except.bind]

/-- C9 witness: the delegate's failure on `2 +` surfaces through the
pipeline with its message intact. -/
theorem delegate_failure_surfaces_unchanged_witness :
    runPipeline (some "2 +") = .error (ToolError.parseError "invalid syntax") :=
  delegate_failure_surfaces_unchanged (some "2 +") ⟨"2 +"⟩ "invalid syntax"
    rfl (by rfl)

/-- C10: an expression with a free symbol does not fail — `run` returns the
string rendering of the partially evaluated symbolic expression, and that
result string does not denote a number. -/
theorem free_symbol_returns_symbolic_string :
    runStr "x + 1" = .ok ⟨"x + 1.0"⟩ ∧ decvalStr "x + 1.0" = none := by
  refine ⟨by rfl, by rfl⟩

end AtomicTools
